import Mathlib

/-!
Verification of the Telnet protocol filter of BetterTelnet (src/main.go).

The filter is `TelnetReader.Read`: a pull-based decoder over a
`bufio.Reader`.  We embed it shallowly:

* `ByteSource` models the `bufio.Reader` over the network connection:
  `buf` is the reader's internal buffer, `chunks` are the byte groups
  that successive `Read` calls on the underlying connection will
  deliver, and `endErr` is the error (EOF or otherwise) the underlying
  source returns once `chunks` is exhausted.
* `readByte` models `bufio.Reader.ReadByte`: pop from the buffer, or
  refill the buffer from the next chunk, or fail with `endErr`.
* `ByteSource.buffered` models `bufio.Reader.Buffered()`.
* `readLoopF` is the loop body of `TelnetReader.Read` (main.go lines
  176-226), with a fuel parameter to make the recursion structural;
  `TelnetRead` instantiates the fuel with a provably sufficient value.
* `subnegF`/`subneg` is the inner subnegotiation loop (lines 198-212).
* `drainF`/`drain` iterates `TelnetRead` until the source fails, i.e.
  the whole-session output as performed by `io.Copy`.
* `stepSt`/`runSt`/`decode` is a pure, chunking-independent
  description of the byte-level state machine, related to `TelnetRead`
  by the lemma `readLoopF_spec` below.
-/

-- Telnet protocol constants (main.go lines 19-27)
def IAC : Nat := 255
def DONT : Nat := 254
def DO : Nat := 253
def WONT : Nat := 252
def WILL : Nat := 251
def SB : Nat := 250
def SE : Nat := 240

/-- Model of the `bufio.Reader` wrapping the TCP connection.  `buf` is
the data currently buffered, `chunks` the successive results of future
reads on the underlying connection, `endErr` the error delivered once
the stream is exhausted. -/
structure ByteSource (ε : Type) where
  buf : List Nat
  chunks : List (List Nat)
  endErr : ε
  deriving DecidableEq, Repr

/-- All bytes the source will ever deliver, in order. -/
def ByteSource.flat {ε : Type} (s : ByteSource ε) : List Nat :=
  s.buf ++ s.chunks.flatten

/-- Number of bytes the source will ever deliver. -/
def ByteSource.size {ε : Type} (s : ByteSource ε) : Nat :=
  s.flat.length

/-- Model of `bufio.Reader.Buffered()`: bytes available in the buffer
without a read on the underlying connection. -/
def ByteSource.buffered {ε : Type} (s : ByteSource ε) : Nat :=
  s.buf.length

/-- Refill step of `bufio.Reader`: take the next nonempty chunk from
the underlying connection, or fail with the stream's terminal error. -/
def fillFrom {ε : Type} : List (List Nat) → ε → Except ε (Nat × ByteSource ε)
  | [], e => .error e
  | [] :: cs, e => fillFrom cs e
  | (b :: rest) :: cs, e => .ok (b, ⟨rest, cs, e⟩)

/-- Model of `bufio.Reader.ReadByte`. -/
def readByte {ε : Type} (s : ByteSource ε) : Except ε (Nat × ByteSource ε) :=
  match s with
  | ⟨b :: rest, cs, e⟩ => .ok (b, ⟨rest, cs, e⟩)
  | ⟨[], cs, e⟩ => fillFrom cs e

/-- Inner loop of the `cmd == SB` arm of `TelnetReader.Read` (main.go
lines 198-212), with fuel: scan and discard bytes until the two-byte
terminator `IAC SE`; an `IAC` not followed by `SE` is discarded with
its follower.  Returns the remaining source and, on a failed read, the
propagated error. -/
def subnegF {ε : Type} : Nat → ByteSource ε → ByteSource ε × Option ε
  | 0, src => (src, none)
  | fuel + 1, src =>
    match readByte src with
    | .error e => (src, some e)
    | .ok (sbBytes, src1) =>
      if sbBytes = IAC then
        match readByte src1 with
        | .error e => (src1, some e)
        | .ok (next, src2) =>
          if next = SE then (src2, none)
          else subnegF fuel src2
      else subnegF fuel src1

/-- The subnegotiation loop with sufficient fuel. -/
def subneg {ε : Type} (src : ByteSource ε) : ByteSource ε × Option ε :=
  subnegF (src.size + 1) src

/-- Loop body of `TelnetReader.Read` (main.go lines 176-226), with
fuel.  `cap` is `len(p)`, `acc` the bytes written to `p` so far (so
`acc.length` is `n`).  Returns the emitted bytes, the remaining
source, and the error returned to the caller (`none` for `nil`).
Each branch mirrors one arm of the Go code, including the trailing
`Buffered() == 0 && n > 0` early-return check — which the
unrecognized-command arm skips via `continue`. -/
def readLoopF {ε : Type} : Nat → Nat → List Nat → ByteSource ε →
    List Nat × ByteSource ε × Option ε
  | 0, _, acc, src => (acc, src, none)
  | fuel + 1, cap, acc, src =>
    if acc.length < cap then
      match readByte src with
      | .error e => (acc, src, some e)
      | .ok (b, src1) =>
        if b = IAC then
          match readByte src1 with
          | .error e => (acc, src1, some e)
          | .ok (cmd, src2) =>
            if cmd = IAC then
              if src2.buffered = 0 ∧ 0 < (acc ++ [IAC]).length then
                (acc ++ [IAC], src2, none)
              else readLoopF fuel cap (acc ++ [IAC]) src2
            else if cmd = DO ∨ cmd = DONT ∨ cmd = WILL ∨ cmd = WONT then
              match readByte src2 with
              | .error e => (acc, src2, some e)
              | .ok (_, src3) =>
                if src3.buffered = 0 ∧ 0 < acc.length then (acc, src3, none)
                else readLoopF fuel cap acc src3
            else if cmd = SB then
              match subneg src2 with
              | (src3, some e) => (acc, src3, some e)
              | (src3, none) =>
                if src3.buffered = 0 ∧ 0 < acc.length then (acc, src3, none)
                else readLoopF fuel cap acc src3
            else readLoopF fuel cap acc src2
        else
          if src1.buffered = 0 ∧ 0 < (acc ++ [b]).length then
            (acc ++ [b], src1, none)
          else readLoopF fuel cap (acc ++ [b]) src1
    else (acc, src, none)

/-- One call `TelnetReader.Read(p)` with `len(p) = cap`: the loop with
sufficient fuel, starting from an empty output. -/
def TelnetRead {ε : Type} (cap : Nat) (src : ByteSource ε) :
    List Nat × ByteSource ε × Option ε :=
  readLoopF (src.size + 1) cap [] src

/-- Repeated calls to `TelnetReader.Read` until the source fails, as
performed by `io.Copy`: concatenated output plus the final error. -/
def drainF {ε : Type} : Nat → Nat → ByteSource ε → List Nat × Option ε
  | 0, _, _ => ([], none)
  | fuel + 1, cap, src =>
    match TelnetRead cap src with
    | (out, _, some e) => (out, some e)
    | (out, src', none) =>
      let r := drainF fuel cap src'
      (out ++ r.1, r.2)

/-- The whole-stream output of the filter, with sufficient fuel. -/
def drain {ε : Type} (cap : Nat) (src : ByteSource ε) : List Nat × Option ε :=
  drainF (src.size + 1) cap src

/-- Decoder states of the filter's byte-level state machine (spec §3):
`idle` passes data through, `seenIAC` awaits the command byte after an
`IAC`, `inNeg` awaits the option byte of a negotiation, `inSB` scans a
subnegotiation block, `inSBiac` has just seen an `IAC` inside a block
and awaits its follower. -/
inductive TState where
  | idle | seenIAC | inNeg | inSB | inSBiac
  deriving DecidableEq, Repr

/-- One step of the pure, chunking-independent state machine: consume
one byte, yielding the next state and the bytes emitted. -/
def stepSt : TState → Nat → TState × List Nat
  | .idle, b => if b = IAC then (.seenIAC, []) else (.idle, [b])
  | .seenIAC, cmd =>
    if cmd = IAC then (.idle, [IAC])
    else if cmd = DO ∨ cmd = DONT ∨ cmd = WILL ∨ cmd = WONT then (.inNeg, [])
    else if cmd = SB then (.inSB, [])
    else (.idle, [])
  | .inNeg, _ => (.idle, [])
  | .inSB, b => if b = IAC then (.inSBiac, []) else (.inSB, [])
  | .inSBiac, b => if b = SE then (.idle, []) else (.inSB, [])

/-- Run of the state machine over a byte list.  An input ending in an
incomplete control sequence contributes no output, matching the code,
which returns the read error without emitting anything for it. -/
def runSt : TState → List Nat → List Nat
  | _, [] => []
  | st, b :: rest => (stepSt st b).2 ++ runSt (stepSt st b).1 rest

/-- The decoder from the plain-data state. -/
def decode : List Nat → List Nat := runSt .idle

/-- Scan of a subnegotiation block body, mirroring the pairing done by
the code's scanning loop: the flag records whether the previous byte
was an unpaired `IAC`.  `true` result means the scan consumes the
whole list without finding a terminating `IAC SE` and without leaving
a trailing unpaired `IAC`. -/
def sbOk : Bool → List Nat → Bool
  | false, [] => true
  | true, [] => false
  | false, b :: rest => if b = IAC then sbOk true rest else sbOk false rest
  | true, b :: rest => if b = SE then false else sbOk false rest

/-- Subnegotiation block contents that the scanning loop of the code
passes over without terminating: every `IAC` is immediately followed
by a byte other than `SE` (that follower being consumed with it), and
no trailing `IAC` is left to pair with a later byte. -/
def sbSafe (ws : List Nat) : Bool := sbOk false ws

/-- Modelled from the claim on the loop's timing rule (spec §4.1 step
6): the same loop as `readLoopF`, except that the
`Buffered() == 0 && n > 0` early-return check is performed after every
processed item, including an unrecognized IAC command — as prescribed
by the words "regardless of which kind of byte ... including an
unrecognized IAC command ... was processed last".  The code instead
reaches that arm with `continue`, skipping the check. -/
def readLoopClaimF {ε : Type} : Nat → Nat → List Nat → ByteSource ε →
    List Nat × ByteSource ε × Option ε
  | 0, _, acc, src => (acc, src, none)
  | fuel + 1, cap, acc, src =>
    if acc.length < cap then
      match readByte src with
      | .error e => (acc, src, some e)
      | .ok (b, src1) =>
        if b = IAC then
          match readByte src1 with
          | .error e => (acc, src1, some e)
          | .ok (cmd, src2) =>
            if cmd = IAC then
              if src2.buffered = 0 ∧ 0 < (acc ++ [IAC]).length then
                (acc ++ [IAC], src2, none)
              else readLoopClaimF fuel cap (acc ++ [IAC]) src2
            else if cmd = DO ∨ cmd = DONT ∨ cmd = WILL ∨ cmd = WONT then
              match readByte src2 with
              | .error e => (acc, src2, some e)
              | .ok (_, src3) =>
                if src3.buffered = 0 ∧ 0 < acc.length then (acc, src3, none)
                else readLoopClaimF fuel cap acc src3
            else if cmd = SB then
              match subneg src2 with
              | (src3, some e) => (acc, src3, some e)
              | (src3, none) =>
                if src3.buffered = 0 ∧ 0 < acc.length then (acc, src3, none)
                else readLoopClaimF fuel cap acc src3
            else
              if src2.buffered = 0 ∧ 0 < acc.length then (acc, src2, none)
              else readLoopClaimF fuel cap acc src2
        else
          if src1.buffered = 0 ∧ 0 < (acc ++ [b]).length then
            (acc ++ [b], src1, none)
          else readLoopClaimF fuel cap (acc ++ [b]) src1
    else (acc, src, none)

/-- One call of `Read` as the claim describes it. -/
def TelnetReadClaim {ε : Type} (cap : Nat) (src : ByteSource ε) :
    List Nat × ByteSource ε × Option ε :=
  readLoopClaimF (src.size + 1) cap [] src

-- sanity checks (spec §8 examples)
example : decode [255, 255] = [255] := by decide
example : decode [255, 253, 1, 65] = [65] := by decide
example : decode [255, 250, 24, 0, 255, 240, 89] = [89] := by decide
example :
    decode ([72, 101, 108, 108, 111] ++ [255, 251, 1] ++
      [32, 87, 111, 114, 108, 100] ++ [255, 255] ++ [33]) =
    [72, 101, 108, 108, 111, 32, 87, 111, 114, 108, 100, 255, 33] := by decide
example :
    TelnetRead 10 (⟨[255, 253, 1, 65], [], 0⟩ : ByteSource Nat) =
      ([65], ⟨[], [], 0⟩, none) := by decide
example :
    (drain 3 (⟨[], [[72, 105], [255, 255]], 0⟩ : ByteSource Nat)) =
      ([72, 105, 255], some 0) := by decide
example :
    TelnetRead 4 (⟨[65, 255, 241], [], 7⟩ : ByteSource Nat) =
      ([65], ⟨[], [], 7⟩, some 7) := by decide
example :
    TelnetRead 4 (⟨[65, 255, 241], [[66]], 7⟩ : ByteSource Nat) =
      ([65, 66], ⟨[], [], 7⟩, none) := by decide

example :
    TelnetReadClaim 4 (⟨[65, 255, 241], [], 7⟩ : ByteSource Nat) =
      ([65], ⟨[], [], 7⟩, none) := by decide

/-! ### Basic facts about the byte source -/

theorem fillFrom_ok {ε : Type} (cs : List (List Nat)) (e : ε) :
    ∀ (b : Nat) (src' : ByteSource ε),
      fillFrom cs e = .ok (b, src') →
      cs.flatten = b :: src'.flat ∧ src'.endErr = e := by
  induction cs with
  | nil => intro b src' h; simp [fillFrom] at h
  | cons c cs ih =>
    intro b src' h
    cases c with
    | nil =>
      have h2 := ih b src' (by simpa [fillFrom] using h)
      simpa using h2
    | cons x rest =>
      simp only [fillFrom, Except.ok.injEq, Prod.mk.injEq] at h
      obtain ⟨hb, hs⟩ := h
      subst hb; subst hs
      simp [ByteSource.flat]

theorem fillFrom_error {ε : Type} (cs : List (List Nat)) (e e' : ε) :
    fillFrom cs e = .error e' → e' = e ∧ cs.flatten = [] := by
  induction cs with
  | nil => intro h; simp only [fillFrom, Except.error.injEq] at h; simp [h]
  | cons c cs ih =>
    intro h
    cases c with
    | nil =>
      have h2 := ih (by simpa [fillFrom] using h)
      simpa using h2
    | cons x rest => simp [fillFrom] at h

theorem readByte_ok {ε : Type} (src : ByteSource ε) (b : Nat)
    (src' : ByteSource ε) (h : readByte src = .ok (b, src')) :
    src.flat = b :: src'.flat ∧ src'.endErr = src.endErr := by
  obtain ⟨buf, chunks, e⟩ := src
  cases buf with
  | nil =>
    simp only [readByte] at h
    have h2 := fillFrom_ok chunks e b src' h
    simpa [ByteSource.flat] using h2
  | cons x rest =>
    simp only [readByte, Except.ok.injEq, Prod.mk.injEq] at h
    obtain ⟨hb, hs⟩ := h
    subst hb; subst hs
    simp [ByteSource.flat]

theorem readByte_ok_size {ε : Type} (src : ByteSource ε) (b : Nat)
    (src' : ByteSource ε) (h : readByte src = .ok (b, src')) :
    src'.size + 1 = src.size := by
  have h2 := (readByte_ok src b src' h).1
  simp [ByteSource.size, h2]

theorem readByte_error {ε : Type} (src : ByteSource ε) (e' : ε)
    (h : readByte src = .error e') :
    e' = src.endErr ∧ src.flat = [] := by
  obtain ⟨buf, chunks, e⟩ := src
  cases buf with
  | nil =>
    simp only [readByte] at h
    have h2 := fillFrom_error chunks e e' h
    simpa [ByteSource.flat] using h2
  | cons x rest => simp [readByte] at h

/-! ### Unfolding lemmas for the pure decoder -/

theorem runSt_nil (st : TState) : runSt st [] = [] := rfl

theorem runSt_cons (st : TState) (b : Nat) (l : List Nat) :
    runSt st (b :: l) = (stepSt st b).2 ++ runSt (stepSt st b).1 l := rfl

theorem runSt_idle_data (b : Nat) (l : List Nat) (hb : b ≠ IAC) :
    runSt .idle (b :: l) = b :: runSt .idle l := by
  simp [runSt_cons, stepSt, hb]

theorem runSt_idle_iac_nil : runSt .idle [IAC] = [] := rfl

theorem runSt_idle_iac_iac (l : List Nat) :
    runSt .idle (IAC :: IAC :: l) = IAC :: runSt .idle l := rfl

theorem runSt_idle_neg (cmd x : Nat) (l : List Nat)
    (h : cmd = DO ∨ cmd = DONT ∨ cmd = WILL ∨ cmd = WONT) :
    runSt .idle (IAC :: cmd :: x :: l) = runSt .idle l := by
  rcases h with h | h | h | h <;> subst h <;> rfl

theorem runSt_idle_neg_nil (cmd : Nat)
    (h : cmd = DO ∨ cmd = DONT ∨ cmd = WILL ∨ cmd = WONT) :
    runSt .idle [IAC, cmd] = [] := by
  rcases h with h | h | h | h <;> subst h <;> rfl

theorem runSt_idle_sb (l : List Nat) :
    runSt .idle (IAC :: SB :: l) = runSt .inSB l := rfl

theorem runSt_idle_unknown (cmd : Nat) (l : List Nat) (h1 : cmd ≠ IAC)
    (h2 : ¬(cmd = DO ∨ cmd = DONT ∨ cmd = WILL ∨ cmd = WONT))
    (h3 : cmd ≠ SB) :
    runSt .idle (IAC :: cmd :: l) = runSt .idle l := by
  simp [runSt_cons, stepSt, h1, h2, h3]

theorem runSt_sb_data (b : Nat) (l : List Nat) (hb : b ≠ IAC) :
    runSt .inSB (b :: l) = runSt .inSB l := by
  simp [runSt_cons, stepSt, hb]

theorem runSt_sb_iac_nil : runSt .inSB [IAC] = [] := rfl

theorem runSt_sb_iac_se (l : List Nat) :
    runSt .inSB (IAC :: SE :: l) = runSt .idle l := rfl

theorem runSt_sb_iac_other (x : Nat) (l : List Nat) (hx : x ≠ SE) :
    runSt .inSB (IAC :: x :: l) = runSt .inSB l := by
  simp [runSt_cons, stepSt, hx]

/-! ### Correctness of the subnegotiation loop -/

theorem subnegF_spec {ε : Type} :
    ∀ (fuel : Nat) (src src' : ByteSource ε) (res : Option ε),
      src.size < fuel →
      subnegF fuel src = (src', res) →
      src'.endErr = src.endErr ∧ src'.size ≤ src.size ∧
        (res = none → runSt .inSB src.flat = runSt .idle src'.flat) ∧
        (∀ e, res = some e →
          e = src.endErr ∧ src'.flat = [] ∧ runSt .inSB src.flat = []) := by
  intro fuel
  induction fuel with
  | zero => intro src src' res h; exact absurd h (Nat.not_lt_zero _)
  | succ fuel ih =>
    intro src src' res hfuel hrun
    rcases h1 : readByte src with e | ⟨b, src1⟩
    · simp only [subnegF, h1, Prod.mk.injEq] at hrun
      obtain ⟨h3, h4⟩ := hrun
      subst h3; subst h4
      obtain ⟨he, hf⟩ := readByte_error src e h1
      refine ⟨rfl, Nat.le_refl _, ?_, ?_⟩
      · intro h; cases h
      · intro e' h; injection h with h; subst h
        exact ⟨he, hf, by rw [hf]; rfl⟩
    · obtain ⟨hflat1, hend1⟩ := readByte_ok src b src1 h1
      have hsize1 := readByte_ok_size src b src1 h1
      simp only [subnegF, h1] at hrun
      by_cases hb : b = IAC
      · rw [if_pos hb] at hrun
        rcases h2 : readByte src1 with e | ⟨next, src2⟩
        · simp only [h2, Prod.mk.injEq] at hrun
          obtain ⟨h3, h4⟩ := hrun
          subst h3; subst h4
          obtain ⟨he, hf⟩ := readByte_error src1 e h2
          refine ⟨hend1, by omega, ?_, ?_⟩
          · intro h; cases h
          · intro e' h; injection h with h; subst h
            refine ⟨he.trans hend1, hf, ?_⟩
            rw [hflat1, hb, hf]
            exact runSt_sb_iac_nil
        · obtain ⟨hflat2, hend2⟩ := readByte_ok src1 next src2 h2
          have hsize2 := readByte_ok_size src1 next src2 h2
          simp only [h2] at hrun
          by_cases hn : next = SE
          · rw [if_pos hn] at hrun
            simp only [Prod.mk.injEq] at hrun
            obtain ⟨h3, h4⟩ := hrun
            subst h3; subst h4
            refine ⟨hend2.trans hend1, by omega, ?_, ?_⟩
            · intro _
              rw [hflat1, hb, hflat2, hn]
              exact runSt_sb_iac_se _
            · intro e' h; cases h
          · rw [if_neg hn] at hrun
            obtain ⟨hE, hS, hN, hSome⟩ :=
              ih src2 src' res (by omega) hrun
            refine ⟨hE.trans (hend2.trans hend1), by omega, ?_, ?_⟩
            · intro h
              rw [hflat1, hb, hflat2, runSt_sb_iac_other next _ hn]
              exact hN h
            · intro e' h
              obtain ⟨he, hf, hz⟩ := hSome e' h
              refine ⟨he.trans (hend2.trans hend1), hf, ?_⟩
              rw [hflat1, hb, hflat2, runSt_sb_iac_other next _ hn]
              exact hz
      · rw [if_neg hb] at hrun
        obtain ⟨hE, hS, hN, hSome⟩ :=
          ih src1 src' res (by omega) hrun
        refine ⟨hE.trans hend1, by omega, ?_, ?_⟩
        · intro h
          rw [hflat1, runSt_sb_data b _ hb]
          exact hN h
        · intro e' h
          obtain ⟨he, hf, hz⟩ := hSome e' h
          refine ⟨he.trans hend1, hf, ?_⟩
          rw [hflat1, runSt_sb_data b _ hb]
          exact hz

theorem subneg_spec {ε : Type} (src src' : ByteSource ε) (res : Option ε)
    (h : subneg src = (src', res)) :
    src'.endErr = src.endErr ∧ src'.size ≤ src.size ∧
      (res = none → runSt .inSB src.flat = runSt .idle src'.flat) ∧
      (∀ e, res = some e →
        e = src.endErr ∧ src'.flat = [] ∧ runSt .inSB src.flat = []) :=
  subnegF_spec (src.size + 1) src src' res (Nat.lt_succ_self _) h

/-! ### Correctness of the read loop -/

/-- Central lemma: a run of the loop body of `TelnetReader.Read`
extends the output `acc` by exactly the decode of the consumed part of
the stream; the remaining stream decodes independently from the idle
state; the terminal error, if any, is the source's own error, reached
only with the source exhausted. -/
theorem readLoopF_spec {ε : Type} :
    ∀ (fuel cap : Nat) (acc : List Nat) (src : ByteSource ε)
      (out : List Nat) (src' : ByteSource ε) (res : Option ε),
      src.size < fuel →
      readLoopF fuel cap acc src = (out, src', res) →
      (∃ d, out = acc ++ d ∧
        runSt .idle src.flat = d ++ runSt .idle src'.flat) ∧
      src'.endErr = src.endErr ∧ src'.size ≤ src.size ∧
      (∀ e, res = some e → e = src.endErr ∧ src'.flat = []) := by
  intro fuel
  induction fuel with
  | zero => intro cap acc src out src' res hfuel _
            exact absurd hfuel (Nat.not_lt_zero _)
  | succ fuel ih =>
    intro cap acc src out src' res hfuel hrun
    by_cases hcap : acc.length < cap
    · rcases h1 : readByte src with e | ⟨b, src1⟩
      · simp only [readLoopF, if_pos hcap, h1, Prod.mk.injEq] at hrun
        obtain ⟨ho, hs, hr⟩ := hrun
        subst ho; subst hs; subst hr
        obtain ⟨he, hf⟩ := readByte_error src e h1
        refine ⟨⟨[], by simp, by simp⟩, rfl, Nat.le_refl _, ?_⟩
        intro e' h; injection h with h; subst h; exact ⟨he, hf⟩
      · obtain ⟨hflat1, hend1⟩ := readByte_ok src b src1 h1
        have hsize1 := readByte_ok_size src b src1 h1
        simp only [readLoopF, if_pos hcap, h1] at hrun
        by_cases hb : b = IAC
        · rw [if_pos hb] at hrun
          rcases h2 : readByte src1 with e | ⟨cmd, src2⟩
          · simp only [h2, Prod.mk.injEq] at hrun
            obtain ⟨ho, hs, hr⟩ := hrun
            subst ho; subst hs; subst hr
            obtain ⟨he, hf⟩ := readByte_error src1 e h2
            refine ⟨⟨[], by simp, ?_⟩, hend1, by omega, ?_⟩
            · rw [hflat1, hb, hf]
              rfl
            · intro e' h; injection h with h; subst h
              exact ⟨he.trans hend1, hf⟩
          · obtain ⟨hflat2, hend2⟩ := readByte_ok src1 cmd src2 h2
            have hsize2 := readByte_ok_size src1 cmd src2 h2
            simp only [h2] at hrun
            by_cases hc : cmd = IAC
            · rw [if_pos hc] at hrun
              by_cases hflush : src2.buffered = 0 ∧ 0 < (acc ++ [IAC]).length
              · rw [if_pos hflush] at hrun
                simp only [Prod.mk.injEq] at hrun
                obtain ⟨ho, hs, hr⟩ := hrun
                subst ho; subst hs; subst hr
                refine ⟨⟨[IAC], rfl, ?_⟩, hend2.trans hend1, by omega, ?_⟩
                · rw [hflat1, hb, hflat2, hc, runSt_idle_iac_iac]
                  rfl
                · intro e' h; cases h
              · rw [if_neg hflush] at hrun
                obtain ⟨⟨d, hd1, hd2⟩, hE, hS, hErr⟩ :=
                  ih cap (acc ++ [IAC]) src2 out src' res (by omega) hrun
                refine ⟨⟨IAC :: d, by simp [hd1], ?_⟩,
                  hE.trans (hend2.trans hend1), by omega, ?_⟩
                · rw [hflat1, hb, hflat2, hc, runSt_idle_iac_iac, hd2]
                  rfl
                · intro e' h
                  obtain ⟨he, hf⟩ := hErr e' h
                  exact ⟨he.trans (hend2.trans hend1), hf⟩
            · rw [if_neg hc] at hrun
              by_cases hneg : cmd = DO ∨ cmd = DONT ∨ cmd = WILL ∨ cmd = WONT
              · rw [if_pos hneg] at hrun
                rcases h3 : readByte src2 with e | ⟨x, src3⟩
                · simp only [h3, Prod.mk.injEq] at hrun
                  obtain ⟨ho, hs, hr⟩ := hrun
                  subst ho; subst hs; subst hr
                  obtain ⟨he, hf⟩ := readByte_error src2 e h3
                  refine ⟨⟨[], by simp, ?_⟩, hend2.trans hend1, by omega, ?_⟩
                  · rw [hflat1, hb, hflat2, hf, runSt_idle_neg_nil cmd hneg]
                    rfl
                  · intro e' h; injection h with h; subst h
                    exact ⟨he.trans (hend2.trans hend1), hf⟩
                · obtain ⟨hflat3, hend3⟩ := readByte_ok src2 x src3 h3
                  have hsize3 := readByte_ok_size src2 x src3 h3
                  simp only [h3] at hrun
                  by_cases hflush : src3.buffered = 0 ∧ 0 < acc.length
                  · rw [if_pos hflush] at hrun
                    simp only [Prod.mk.injEq] at hrun
                    obtain ⟨ho, hs, hr⟩ := hrun
                    subst ho; subst hs; subst hr
                    refine ⟨⟨[], by simp, ?_⟩,
                      hend3.trans (hend2.trans hend1), by omega, ?_⟩
                    · rw [hflat1, hb, hflat2, hflat3, runSt_idle_neg cmd x _ hneg]
                      rfl
                    · intro e' h; cases h
                  · rw [if_neg hflush] at hrun
                    obtain ⟨⟨d, hd1, hd2⟩, hE, hS, hErr⟩ :=
                      ih cap acc src3 out src' res (by omega) hrun
                    refine ⟨⟨d, hd1, ?_⟩,
                      hE.trans (hend3.trans (hend2.trans hend1)), by omega, ?_⟩
                    · rw [hflat1, hb, hflat2, hflat3, runSt_idle_neg cmd x _ hneg]
                      exact hd2
                    · intro e' h
                      obtain ⟨he, hf⟩ := hErr e' h
                      exact ⟨he.trans (hend3.trans (hend2.trans hend1)), hf⟩
              · rw [if_neg hneg] at hrun
                by_cases hsb : cmd = SB
                · rw [if_pos hsb] at hrun
                  rcases h4 : subneg src2 with ⟨src3, res3⟩
                  obtain ⟨sE, sS, sN, sSome⟩ := subneg_spec src2 src3 res3 h4
                  cases res3 with
                  | some e =>
                    simp only [h4, Prod.mk.injEq] at hrun
                    obtain ⟨ho, hs, hr⟩ := hrun
                    subst ho; subst hs; subst hr
                    obtain ⟨he, hf, hz⟩ := sSome e rfl
                    refine ⟨⟨[], by simp, ?_⟩,
                      sE.trans (hend2.trans hend1), by omega, ?_⟩
                    · rw [hflat1, hb, hflat2, hsb, runSt_idle_sb, hz, hf]
                      rfl
                    · intro e' h; injection h with h; subst h
                      exact ⟨he.trans (hend2.trans hend1), hf⟩
                  | none =>
                    simp only [h4] at hrun
                    have hsbN := sN rfl
                    by_cases hflush : src3.buffered = 0 ∧ 0 < acc.length
                    · rw [if_pos hflush] at hrun
                      simp only [Prod.mk.injEq] at hrun
                      obtain ⟨ho, hs, hr⟩ := hrun
                      subst ho; subst hs; subst hr
                      refine ⟨⟨[], by simp, ?_⟩,
                        sE.trans (hend2.trans hend1), by omega, ?_⟩
                      · rw [hflat1, hb, hflat2, hsb, runSt_idle_sb, hsbN]
                        rfl
                      · intro e' h; cases h
                    · rw [if_neg hflush] at hrun
                      obtain ⟨⟨d, hd1, hd2⟩, hE, hS, hErr⟩ :=
                        ih cap acc src3 out src' res (by omega) hrun
                      refine ⟨⟨d, hd1, ?_⟩,
                        hE.trans (sE.trans (hend2.trans hend1)), by omega, ?_⟩
                      · rw [hflat1, hb, hflat2, hsb, runSt_idle_sb, hsbN]
                        exact hd2
                      · intro e' h
                        obtain ⟨he, hf⟩ := hErr e' h
                        exact ⟨he.trans (sE.trans (hend2.trans hend1)), hf⟩
                · rw [if_neg hsb] at hrun
                  obtain ⟨⟨d, hd1, hd2⟩, hE, hS, hErr⟩ :=
                    ih cap acc src2 out src' res (by omega) hrun
                  refine ⟨⟨d, hd1, ?_⟩,
                    hE.trans (hend2.trans hend1), by omega, ?_⟩
                  · rw [hflat1, hb, hflat2, runSt_idle_unknown cmd _ hc hneg hsb]
                    exact hd2
                  · intro e' h
                    obtain ⟨he, hf⟩ := hErr e' h
                    exact ⟨he.trans (hend2.trans hend1), hf⟩
        · rw [if_neg hb] at hrun
          by_cases hflush : src1.buffered = 0 ∧ 0 < (acc ++ [b]).length
          · rw [if_pos hflush] at hrun
            simp only [Prod.mk.injEq] at hrun
            obtain ⟨ho, hs, hr⟩ := hrun
            subst ho; subst hs; subst hr
            refine ⟨⟨[b], rfl, ?_⟩, hend1, by omega, ?_⟩
            · rw [hflat1, runSt_idle_data b _ hb]
              rfl
            · intro e' h; cases h
          · rw [if_neg hflush] at hrun
            obtain ⟨⟨d, hd1, hd2⟩, hE, hS, hErr⟩ :=
              ih cap (acc ++ [b]) src1 out src' res (by omega) hrun
            refine ⟨⟨b :: d, by simp [hd1], ?_⟩, hE.trans hend1, by omega, ?_⟩
            · rw [hflat1, runSt_idle_data b _ hb, hd2]
              rfl
            · intro e' h
              obtain ⟨he, hf⟩ := hErr e' h
              exact ⟨he.trans hend1, hf⟩
    · simp only [readLoopF, if_neg hcap, Prod.mk.injEq] at hrun
      obtain ⟨ho, hs, hr⟩ := hrun
      subst ho; subst hs; subst hr
      refine ⟨⟨[], by simp, by simp⟩, rfl, Nat.le_refl _, ?_⟩
      intro e' h; cases h

theorem runSt_sb_iac (l : List Nat) :
    runSt .inSB (IAC :: l) = runSt .inSBiac l := by
  simp [runSt_cons, stepSt]

theorem runSt_sbiac_other (b : Nat) (l : List Nat) (hb : b ≠ SE) :
    runSt .inSBiac (b :: l) = runSt .inSB l := by
  simp [runSt_cons, stepSt, hb]

/-! ### Content lemmas about the pure decoder -/

/-- Streams without an `IAC` byte pass through the decoder unchanged. -/
theorem runSt_idle_no_iac (l : List Nat) (h : IAC ∉ l) : runSt .idle l = l := by
  induction l with
  | nil => rfl
  | cons b l ih =>
    have hb : b ≠ IAC := fun hh => h (by rw [← hh]; exact List.mem_cons_self b l)
    rw [runSt_idle_data b l hb, ih (fun hh => h (List.mem_cons_of_mem b hh))]

/-- A subnegotiation block whose body the scanner passes over is
consumed in full, emits nothing, and decoding resumes after the
`IAC SE` terminator. -/
theorem runSt_sb_block (ws rest : List Nat) (h : sbSafe ws = true) :
    runSt .inSB (ws ++ IAC :: SE :: rest) = runSt .idle rest := by
  suffices H : ∀ ws rest : List Nat,
      (sbOk false ws = true →
        runSt .inSB (ws ++ IAC :: SE :: rest) = runSt .idle rest) ∧
      (sbOk true ws = true →
        runSt .inSBiac (ws ++ IAC :: SE :: rest) = runSt .idle rest) by
    exact (H ws rest).1 h
  intro ws
  induction ws with
  | nil =>
    intro rest
    refine ⟨fun _ => ?_, fun h2 => absurd h2 (by decide)⟩
    rw [List.nil_append]
    exact runSt_sb_iac_se rest
  | cons b ws1 ih =>
    intro rest
    constructor
    · intro h2
      by_cases hb : b = IAC
      · subst hb
        simp only [sbOk, if_pos rfl] at h2
        rw [List.cons_append, runSt_sb_iac]
        exact (ih rest).2 h2
      · simp only [sbOk, if_neg hb] at h2
        rw [List.cons_append, runSt_sb_data b _ hb]
        exact (ih rest).1 h2
    · intro h2
      by_cases hb : b = SE
      · rw [sbOk, if_pos hb] at h2
        cases h2
      · rw [sbOk, if_neg hb] at h2
        rw [List.cons_append, runSt_sbiac_other b _ hb]
        exact (ih rest).1 h2

/-! ### Exit conditions of the read loop -/

/-- A run of the loop that ends without an error ends either because
the destination buffer is full or because the source has no buffered
byte left and at least one byte has been emitted. -/
theorem readLoopF_exit {ε : Type} :
    ∀ (fuel cap : Nat) (acc : List Nat) (src : ByteSource ε)
      (out : List Nat) (src' : ByteSource ε),
      src.size < fuel → acc.length ≤ cap →
      readLoopF fuel cap acc src = (out, src', none) →
      out.length = cap ∨ (src'.buffered = 0 ∧ 0 < out.length) := by
  intro fuel
  induction fuel with
  | zero => intro cap acc src out src' hfuel _ _
            exact absurd hfuel (Nat.not_lt_zero _)
  | succ fuel ih =>
    intro cap acc src out src' hfuel hacc hrun
    by_cases hcap : acc.length < cap
    · rcases h1 : readByte src with e | ⟨b, src1⟩
      · simp only [readLoopF, if_pos hcap, h1, Prod.mk.injEq] at hrun
        exact absurd hrun.2.2 (by simp)
      · have hsize1 := readByte_ok_size src b src1 h1
        simp only [readLoopF, if_pos hcap, h1] at hrun
        by_cases hb : b = IAC
        · rw [if_pos hb] at hrun
          rcases h2 : readByte src1 with e | ⟨cmd, src2⟩
          · simp only [h2, Prod.mk.injEq] at hrun
            exact absurd hrun.2.2 (by simp)
          · have hsize2 := readByte_ok_size src1 cmd src2 h2
            simp only [h2] at hrun
            by_cases hc : cmd = IAC
            · rw [if_pos hc] at hrun
              by_cases hflush : src2.buffered = 0 ∧ 0 < (acc ++ [IAC]).length
              · rw [if_pos hflush] at hrun
                simp only [Prod.mk.injEq] at hrun
                obtain ⟨ho, hs, _⟩ := hrun
                subst ho; subst hs
                exact Or.inr ⟨hflush.1, hflush.2⟩
              · rw [if_neg hflush] at hrun
                exact ih cap (acc ++ [IAC]) src2 out src' (by omega)
                  (by simp; omega) hrun
            · rw [if_neg hc] at hrun
              by_cases hneg : cmd = DO ∨ cmd = DONT ∨ cmd = WILL ∨ cmd = WONT
              · rw [if_pos hneg] at hrun
                rcases h3 : readByte src2 with e | ⟨x, src3⟩
                · simp only [h3, Prod.mk.injEq] at hrun
                  exact absurd hrun.2.2 (by simp)
                · have hsize3 := readByte_ok_size src2 x src3 h3
                  simp only [h3] at hrun
                  by_cases hflush : src3.buffered = 0 ∧ 0 < acc.length
                  · rw [if_pos hflush] at hrun
                    simp only [Prod.mk.injEq] at hrun
                    obtain ⟨ho, hs, _⟩ := hrun
                    subst ho; subst hs
                    exact Or.inr ⟨hflush.1, hflush.2⟩
                  · rw [if_neg hflush] at hrun
                    exact ih cap acc src3 out src' (by omega) hacc hrun
              · rw [if_neg hneg] at hrun
                by_cases hsb : cmd = SB
                · rw [if_pos hsb] at hrun
                  rcases h4 : subneg src2 with ⟨src3, res3⟩
                  obtain ⟨_, sS, _, _⟩ := subneg_spec src2 src3 res3 h4
                  cases res3 with
                  | some e =>
                    simp only [h4, Prod.mk.injEq] at hrun
                    exact absurd hrun.2.2 (by simp)
                  | none =>
                    simp only [h4] at hrun
                    by_cases hflush : src3.buffered = 0 ∧ 0 < acc.length
                    · rw [if_pos hflush] at hrun
                      simp only [Prod.mk.injEq] at hrun
                      obtain ⟨ho, hs, _⟩ := hrun
                      subst ho; subst hs
                      exact Or.inr ⟨hflush.1, hflush.2⟩
                    · rw [if_neg hflush] at hrun
                      exact ih cap acc src3 out src' (by omega) hacc hrun
                · rw [if_neg hsb] at hrun
                  exact ih cap acc src2 out src' (by omega) hacc hrun
        · rw [if_neg hb] at hrun
          by_cases hflush : src1.buffered = 0 ∧ 0 < (acc ++ [b]).length
          · rw [if_pos hflush] at hrun
            simp only [Prod.mk.injEq] at hrun
            obtain ⟨ho, hs, _⟩ := hrun
            subst ho; subst hs
            exact Or.inr ⟨hflush.1, hflush.2⟩
          · rw [if_neg hflush] at hrun
            exact ih cap (acc ++ [b]) src1 out src' (by omega)
              (by simp; omega) hrun
    · simp only [readLoopF, if_neg hcap, Prod.mk.injEq] at hrun
      obtain ⟨ho, _, _⟩ := hrun
      subst ho
      exact Or.inl (by omega)

/-- An error-free call with a nonempty destination buffer consumes at
least one byte of the source. -/
theorem readLoopF_progress {ε : Type} (fuel cap : Nat) (src : ByteSource ε)
    (out : List Nat) (src' : ByteSource ε) (hfuel : src.size < fuel)
    (hcap : 0 < cap) (hrun : readLoopF fuel cap [] src = (out, src', none)) :
    src'.size < src.size := by
  cases fuel with
  | zero => exact absurd hfuel (Nat.not_lt_zero _)
  | succ fuel =>
    have hcap2 : ([] : List Nat).length < cap := by simpa using hcap
    rcases h1 : readByte src with e | ⟨b, src1⟩
    · simp only [readLoopF, if_pos hcap2, h1, Prod.mk.injEq] at hrun
      exact absurd hrun.2.2 (by simp)
    · have hsize1 := readByte_ok_size src b src1 h1
      simp only [readLoopF, if_pos hcap2, h1] at hrun
      by_cases hb : b = IAC
      · rw [if_pos hb] at hrun
        rcases h2 : readByte src1 with e | ⟨cmd, src2⟩
        · simp only [h2, Prod.mk.injEq] at hrun
          exact absurd hrun.2.2 (by simp)
        · have hsize2 := readByte_ok_size src1 cmd src2 h2
          simp only [h2] at hrun
          by_cases hc : cmd = IAC
          · rw [if_pos hc] at hrun
            by_cases hflush : src2.buffered = 0 ∧ 0 < (([] : List Nat) ++ [IAC]).length
            · rw [if_pos hflush] at hrun
              simp only [Prod.mk.injEq] at hrun
              obtain ⟨_, hs, _⟩ := hrun
              subst hs; omega
            · rw [if_neg hflush] at hrun
              have := (readLoopF_spec fuel cap ([] ++ [IAC]) src2 out src'
                none (by omega) hrun).2.2.1
              omega
          · rw [if_neg hc] at hrun
            by_cases hneg : cmd = DO ∨ cmd = DONT ∨ cmd = WILL ∨ cmd = WONT
            · rw [if_pos hneg] at hrun
              rcases h3 : readByte src2 with e | ⟨x, src3⟩
              · simp only [h3, Prod.mk.injEq] at hrun
                exact absurd hrun.2.2 (by simp)
              · have hsize3 := readByte_ok_size src2 x src3 h3
                simp only [h3] at hrun
                by_cases hflush : src3.buffered = 0 ∧ 0 < ([] : List Nat).length
                · rw [if_pos hflush] at hrun
                  simp only [Prod.mk.injEq] at hrun
                  obtain ⟨_, hs, _⟩ := hrun
                  subst hs; omega
                · rw [if_neg hflush] at hrun
                  have := (readLoopF_spec fuel cap [] src3 out src'
                    none (by omega) hrun).2.2.1
                  omega
            · rw [if_neg hneg] at hrun
              by_cases hsb : cmd = SB
              · rw [if_pos hsb] at hrun
                rcases h4 : subneg src2 with ⟨src3, res3⟩
                obtain ⟨_, sS, _, _⟩ := subneg_spec src2 src3 res3 h4
                cases res3 with
                | some e =>
                  simp only [h4, Prod.mk.injEq] at hrun
                  exact absurd hrun.2.2 (by simp)
                | none =>
                  simp only [h4] at hrun
                  by_cases hflush : src3.buffered = 0 ∧ 0 < ([] : List Nat).length
                  · rw [if_pos hflush] at hrun
                    simp only [Prod.mk.injEq] at hrun
                    obtain ⟨_, hs, _⟩ := hrun
                    subst hs; omega
                  · rw [if_neg hflush] at hrun
                    have := (readLoopF_spec fuel cap [] src3 out src'
                      none (by omega) hrun).2.2.1
                    omega
              · rw [if_neg hsb] at hrun
                have := (readLoopF_spec fuel cap [] src2 out src'
                  none (by omega) hrun).2.2.1
                omega
      · rw [if_neg hb] at hrun
        by_cases hflush : src1.buffered = 0 ∧ 0 < (([] : List Nat) ++ [b]).length
        · rw [if_pos hflush] at hrun
          simp only [Prod.mk.injEq] at hrun
          obtain ⟨_, hs, _⟩ := hrun
          subst hs; omega
        · rw [if_neg hflush] at hrun
          have := (readLoopF_spec fuel cap ([] ++ [b]) src1 out src'
            none (by omega) hrun).2.2.1
          omega

/-! ### The whole-stream behaviour -/

/-- Draining the filter with any nonempty destination buffer yields
the pure decode of the flattened stream, followed by the source's own
terminal error. -/
theorem drainF_eq {ε : Type} :
    ∀ (fuel cap : Nat) (src : ByteSource ε),
      src.size < fuel → 0 < cap →
      drainF fuel cap src = (runSt .idle src.flat, some src.endErr) := by
  intro fuel
  induction fuel with
  | zero => intro cap src hfuel _
            exact absurd hfuel (Nat.not_lt_zero _)
  | succ fuel ih =>
    intro cap src hfuel hcap
    rcases hT : TelnetRead cap src with ⟨out, src2, res⟩
    obtain ⟨⟨d, hd1, hd2⟩, hE, hS, hErr⟩ :=
      readLoopF_spec (src.size + 1) cap [] src out src2 res
        (Nat.lt_succ_self _) hT
    cases res with
    | some e =>
      obtain ⟨he, hf⟩ := hErr e rfl
      simp only [drainF, hT]
      rw [hd2, hd1, hf, he]
      simp [runSt_nil]
    | none =>
      have hprog := readLoopF_progress (src.size + 1) cap src out src2
        (Nat.lt_succ_self _) hcap hT
      have hrec := ih cap src2 (by omega) hcap
      simp only [drainF, hT, hrec]
      rw [hd2, hd1, hE]
      simp
theorem drain_eq {ε : Type} (cap : Nat) (src : ByteSource ε)
    (hcap : 0 < cap) :
    drain cap src = (decode src.flat, some src.endErr) :=
  drainF_eq (src.size + 1) cap src (Nat.lt_succ_self _) hcap

/-! ### Buffered runs of the subnegotiation loop -/

/-- When the buffer holds exactly a scanner-safe block body followed
by the `IAC SE` terminator, the subnegotiation loop consumes the whole
buffer and nothing more, succeeding with the pending chunks intact. -/
theorem subnegF_consumes {ε : Type} :
    ∀ (fuel : Nat) (ws : List Nat) (cs : List (List Nat)) (e : ε),
      sbSafe ws = true → ws.length + 2 ≤ fuel →
      subnegF fuel ⟨ws ++ [IAC, SE], cs, e⟩ = (⟨[], cs, e⟩, none) := by
  intro fuel
  induction fuel with
  | zero => intro ws cs e _ hf; omega
  | succ fuel ih =>
    intro ws cs e hsafe hfuel
    cases ws with
    | nil =>
      have h1 : readByte (⟨[IAC, SE], cs, e⟩ : ByteSource ε) =
          .ok (IAC, ⟨[SE], cs, e⟩) := rfl
      have h2 : readByte (⟨[SE], cs, e⟩ : ByteSource ε) =
          .ok (SE, ⟨[], cs, e⟩) := rfl
      simp only [List.nil_append]
      simp [subnegF, h1, h2]
    | cons b ws1 =>
      by_cases hb : b = IAC
      · subst hb
        cases ws1 with
        | nil => exact absurd hsafe (by decide)
        | cons x ws2 =>
          have hlen : ws2.length + 4 ≤ fuel + 1 := by
            simp only [List.length_cons] at hfuel
            omega
          obtain ⟨hx1, hsafe2⟩ : x ≠ SE ∧ sbSafe ws2 = true := by
            simp only [sbSafe, sbOk, if_pos rfl] at hsafe ⊢
            by_cases hxe : x = SE
            · rw [if_pos hxe] at hsafe; cases hsafe
            · rw [if_neg hxe] at hsafe; exact ⟨hxe, hsafe⟩
          have h1 : readByte
              (⟨IAC :: x :: (ws2 ++ [IAC, SE]), cs, e⟩ : ByteSource ε) =
              .ok (IAC, ⟨x :: (ws2 ++ [IAC, SE]), cs, e⟩) := rfl
          have h2 : readByte
              (⟨x :: (ws2 ++ [IAC, SE]), cs, e⟩ : ByteSource ε) =
              .ok (x, ⟨ws2 ++ [IAC, SE], cs, e⟩) := rfl
          simp only [List.cons_append]
          simp only [subnegF, h1, h2]
          simp only [if_pos rfl, if_neg hx1]
          exact ih ws2 cs e hsafe2 (by omega)
      · have hsafe1 : sbSafe ws1 = true := by
          simp only [sbSafe, sbOk, if_neg hb] at hsafe ⊢
          exact hsafe
        have hlen : ws1.length + 3 ≤ fuel + 1 := by
          simp only [List.length_cons] at hfuel
          omega
        have h1 : readByte (⟨b :: (ws1 ++ [IAC, SE]), cs, e⟩ : ByteSource ε) =
            .ok (b, ⟨ws1 ++ [IAC, SE], cs, e⟩) := rfl
        simp only [List.cons_append]
        simp only [subnegF, h1, if_neg hb]
        exact ih ws1 cs e hsafe1 (by omega)

/-- The wrapped subnegotiation loop on a buffered terminator-ended
block. -/
theorem subneg_consumes {ε : Type} (ws : List Nat) (cs : List (List Nat))
    (e : ε) (hws : sbSafe ws = true) :
    subneg ⟨ws ++ [IAC, SE], cs, e⟩ = (⟨[], cs, e⟩, none) := by
  refine subnegF_consumes _ ws cs e hws ?_
  simp [ByteSource.size, ByteSource.flat]

/-! ### The claims -/

/-- C1: for every input byte stream containing no byte equal to 255
(IAC), the concatenated output of `TelnetReader.Read` over the whole
stream equals the input stream exactly, byte for byte, including
embedded ANSI escape bytes. -/
theorem c1_no_iac_passthrough {ε : Type} (chunks : List (List Nat)) (e : ε)
    (cap : Nat) (hcap : 0 < cap) (h : IAC ∉ chunks.flatten) :
    (drain cap ⟨[], chunks, e⟩).1 = chunks.flatten := by
  have hflat : (⟨[], chunks, e⟩ : ByteSource ε).flat = chunks.flatten := by
    simp [ByteSource.flat]
  rw [drain_eq cap _ hcap]
  simp only [hflat]
  exact runSt_idle_no_iac chunks.flatten h

/-- Witness for C1, on a stream holding an ANSI escape sequence
(`ESC [ A` = 27, 91, 65) split across two chunks. -/
theorem c1_no_iac_passthrough_witness :
    (drain 4 (⟨[], [[72, 105], [27, 91, 65]], 0⟩ : ByteSource Nat)).1 =
      [72, 105, 27, 91, 65] :=
  c1_no_iac_passthrough [[72, 105], [27, 91, 65]] 0 4 (by decide) (by decide)

/-- C2: for every byte sequence and every way of splitting it into
chunks delivered by the underlying source, the output of draining
`TelnetReader.Read` equals the output when the whole sequence arrives
as one chunk; chunk boundaries never change the decoded content. -/
theorem c2_chunking_invariance {ε : Type} (chunks : List (List Nat)) (e : ε)
    (cap : Nat) (hcap : 0 < cap) :
    drain cap ⟨[], chunks, e⟩ = drain cap ⟨[], [chunks.flatten], e⟩ := by
  rw [drain_eq cap _ hcap, drain_eq cap _ hcap]
  simp [ByteSource.flat]

/-- Witness for C2: an `IAC IAC` escape split across two chunks
decodes as when delivered whole. -/
theorem c2_chunking_invariance_witness :
    drain 1 (⟨[], [[72, 255], [255]], 0⟩ : ByteSource Nat) =
      drain 1 (⟨[], [[72, 255, 255]], 0⟩ : ByteSource Nat) :=
  c2_chunking_invariance [[72, 255], [255]] 0 1 (by decide)

/-- C7: the two-byte sequence `IAC IAC` in plain data decodes to one
output byte with value 255, after which decoding continues in the
plain-data state. -/
theorem c7_escaped_iac {ε : Type} (rest : List Nat) (e : ε) (cap : Nat)
    (hcap : 0 < cap) :
    (drain cap ⟨[], [IAC :: IAC :: rest], e⟩).1 =
      IAC :: (drain cap ⟨[], [rest], e⟩).1 := by
  rw [drain_eq cap _ hcap, drain_eq cap _ hcap]
  simp only [ByteSource.flat, List.nil_append, List.flatten_cons,
    List.flatten_nil, List.append_nil]
  exact runSt_idle_iac_iac rest

/-- Witness for C7. -/
theorem c7_escaped_iac_witness :
    (drain 3 (⟨[], [[255, 255, 33]], 0⟩ : ByteSource Nat)).1 =
      255 :: (drain 3 (⟨[], [[33]], 0⟩ : ByteSource Nat)).1 :=
  c7_escaped_iac [33] 0 3 (by decide)

/-- C4 as stated is false: a negotiation sequence is 3 bytes, not 4.
On the 4-byte input `IAC DO 1 65`, a 4-byte fully consumed, never
answered negotiation would produce no output at all, but the filter
emits the fourth byte `65` as data. -/
theorem c4_counterexample :
    (drain 8 (⟨[], [[255, 253, 1, 65]], 0⟩ : ByteSource Nat)).1 = [65] ∧
      [65] ≠ ([] : List Nat) := by decide

/-- C4 amended: every negotiation sequence `IAC` `{DO|DONT|WILL|WONT}`
`<option>` is exactly 3 bytes total, fully consumed with no output of
its own, and never replied to (the embedded `Read` has no channel back
to the source); decoding continues with the following byte. -/
theorem c4_negotiation_amended {ε : Type} (verb opt : Nat) (rest : List Nat)
    (e : ε) (cap : Nat)
    (hverb : verb = DO ∨ verb = DONT ∨ verb = WILL ∨ verb = WONT)
    (hcap : 0 < cap) :
    (drain cap ⟨[], [IAC :: verb :: opt :: rest], e⟩).1 =
      (drain cap ⟨[], [rest], e⟩).1 := by
  rw [drain_eq cap _ hcap, drain_eq cap _ hcap]
  simp only [ByteSource.flat, List.nil_append, List.flatten_cons,
    List.flatten_nil, List.append_nil]
  exact runSt_idle_neg verb opt rest hverb

/-- Witness for the amended C4. -/
theorem c4_negotiation_amended_witness :
    (drain 5 (⟨[], [[255, 253, 1, 66]], 0⟩ : ByteSource Nat)).1 =
      (drain 5 (⟨[], [[66]], 0⟩ : ByteSource Nat)).1 :=
  c4_negotiation_amended 253 1 [66] 0 5 (by decide) (by decide)

/-- C5: after `IAC SB`, every byte is consumed and discarded, emitting
nothing, until the exact two-byte terminator `IAC SE`; an `IAC` inside
the block not immediately followed by `SE` is discarded together with
its follower and does not end the block; after `IAC SE`, plain-data
decoding resumes with the next byte. -/
theorem c5_subnegotiation_strip {ε : Type} (ws rest : List Nat) (e : ε)
    (cap : Nat) (hws : sbSafe ws = true) (hcap : 0 < cap) :
    (drain cap ⟨[], [IAC :: SB :: (ws ++ IAC :: SE :: rest)], e⟩).1 =
      (drain cap ⟨[], [rest], e⟩).1 := by
  rw [drain_eq cap _ hcap, drain_eq cap _ hcap]
  simp only [ByteSource.flat, List.nil_append, List.flatten_cons,
    List.flatten_nil, List.append_nil]
  show runSt .idle (IAC :: SB :: (ws ++ IAC :: SE :: rest)) = runSt .idle rest
  rw [runSt_idle_sb]
  exact runSt_sb_block ws rest hws

/-- Witness for C5, on the spec's example block `0x18 0x00` followed
by `Y` (89), exercising also an inner escaped `IAC IAC` pair. -/
theorem c5_subnegotiation_strip_witness :
    (drain 7 (⟨[], [[255, 250, 24, 0, 255, 255, 255, 240, 89]], 0⟩ :
        ByteSource Nat)).1 =
      (drain 7 (⟨[], [[89]], 0⟩ : ByteSource Nat)).1 :=
  c5_subnegotiation_strip [24, 0, 255, 255] [89] 0 7 (by decide) (by decide)

/-- C6: for every option byte `opt` and every following data byte `x`
(a data byte: not the IAC command byte 255), the input
`IAC DO opt x` decodes to the single output byte `x`; the negotiation
itself emits nothing and the option byte is consumed unconditionally;
likewise with DONT, WILL, or WONT in place of DO. -/
theorem c6_negotiation_then_data {ε : Type} (verb opt x : Nat) (e : ε)
    (cap : Nat)
    (hverb : verb = DO ∨ verb = DONT ∨ verb = WILL ∨ verb = WONT)
    (hx : x ≠ IAC) (hcap : 0 < cap) :
    (drain cap ⟨[], [[IAC, verb, opt, x]], e⟩).1 = [x] := by
  rw [drain_eq cap _ hcap]
  simp only [ByteSource.flat, List.nil_append, List.flatten_cons,
    List.flatten_nil, List.append_nil]
  show runSt .idle (IAC :: verb :: opt :: [x]) = [x]
  rw [runSt_idle_neg verb opt [x] hverb, runSt_idle_data x [] hx]
  rfl

/-- Witness for C6, on the spec's example `255, 253, 1, 0x41`, and on
an option byte equal to 255 to show the option is discarded blindly. -/
theorem c6_negotiation_then_data_witness :
    (drain 9 (⟨[], [[255, 253, 255, 65]], 0⟩ : ByteSource Nat)).1 = [65] :=
  c6_negotiation_then_data 253 255 65 0 9 (by decide) (by decide) (by decide)

/-- C3 fails as stated: after stripping an unrecognized IAC command
(here `IAC 241`, NOP) the code skips the `Buffered() == 0 && n > 0`
check via `continue` and performs another read, so it surfaces the
stream's end as an error in the same call instead of returning the
emitted bytes immediately as the claim prescribes. -/
theorem c3_counterexample :
    TelnetRead 4 (⟨[65, 255, 241], [], 7⟩ : ByteSource Nat) ≠
      TelnetReadClaim 4 (⟨[65, 255, 241], [], 7⟩ : ByteSource Nat) := by
  decide

/-- C3 amended: an error-free call returns only when the destination
buffer is full or when the source has no buffered byte left and at
least one byte has been emitted; and the loop does return immediately
under that condition whenever the item it has just finished processing
is a plain data byte, an escaped `IAC IAC`, a negotiation, or a whole
subnegotiation block — in each case the loop returns at once, pending
chunks untouched.  (Only after an unrecognized IAC command is the
check skipped and the loop reads on.) -/
theorem c3_loop_exit_amended :
    (∀ (ε : Type) (cap : Nat) (src : ByteSource ε) (out : List Nat)
        (src' : ByteSource ε),
      TelnetRead cap src = (out, src', none) →
      out.length = cap ∨ (src'.buffered = 0 ∧ 0 < out.length)) ∧
    (∀ (ε : Type) (fuel cap : Nat) (acc : List Nat) (b : Nat)
        (cs : List (List Nat)) (e : ε), b ≠ IAC → acc.length < cap →
      readLoopF (fuel + 1) cap acc ⟨[b], cs, e⟩ =
        (acc ++ [b], ⟨[], cs, e⟩, none)) ∧
    (∀ (ε : Type) (fuel cap : Nat) (acc : List Nat)
        (cs : List (List Nat)) (e : ε), acc.length < cap →
      readLoopF (fuel + 1) cap acc ⟨[IAC, IAC], cs, e⟩ =
        (acc ++ [IAC], ⟨[], cs, e⟩, none)) ∧
    (∀ (ε : Type) (fuel cap : Nat) (acc : List Nat) (verb opt : Nat)
        (cs : List (List Nat)) (e : ε),
      verb = DO ∨ verb = DONT ∨ verb = WILL ∨ verb = WONT →
      0 < acc.length → acc.length < cap →
      readLoopF (fuel + 1) cap acc ⟨[IAC, verb, opt], cs, e⟩ =
        (acc, ⟨[], cs, e⟩, none)) ∧
    (∀ (ε : Type) (fuel cap : Nat) (acc : List Nat) (ws : List Nat)
        (cs : List (List Nat)) (e : ε), sbSafe ws = true →
      0 < acc.length → acc.length < cap →
      readLoopF (fuel + 1) cap acc ⟨IAC :: SB :: (ws ++ [IAC, SE]), cs, e⟩ =
        (acc, ⟨[], cs, e⟩, none)) := by
  refine ⟨?_, ?_, ?_, ?_, ?_⟩
  · intro ε cap src out src' hrun
    exact readLoopF_exit (src.size + 1) cap [] src out src'
      (Nat.lt_succ_self _) (Nat.zero_le _) hrun
  · intro ε fuel cap acc b cs e hb hcap
    have hread : readByte (⟨[b], cs, e⟩ : ByteSource ε) =
        .ok (b, ⟨[], cs, e⟩) := rfl
    simp only [readLoopF, if_pos hcap, hread, if_neg hb]
    simp [ByteSource.buffered]
  · intro ε fuel cap acc cs e hcap
    have h1 : readByte (⟨[IAC, IAC], cs, e⟩ : ByteSource ε) =
        .ok (IAC, ⟨[IAC], cs, e⟩) := rfl
    have h2 : readByte (⟨[IAC], cs, e⟩ : ByteSource ε) =
        .ok (IAC, ⟨[], cs, e⟩) := rfl
    simp only [readLoopF, if_pos hcap, h1, h2, if_pos rfl]
    simp [ByteSource.buffered]
  · intro ε fuel cap acc verb opt cs e hverb hacc hcap
    have hv : verb ≠ IAC := by
      rcases hverb with h | h | h | h <;> subst h <;> decide
    have h1 : readByte (⟨[IAC, verb, opt], cs, e⟩ : ByteSource ε) =
        .ok (IAC, ⟨[verb, opt], cs, e⟩) := rfl
    have h2 : readByte (⟨[verb, opt], cs, e⟩ : ByteSource ε) =
        .ok (verb, ⟨[opt], cs, e⟩) := rfl
    have h3 : readByte (⟨[opt], cs, e⟩ : ByteSource ε) =
        .ok (opt, ⟨[], cs, e⟩) := rfl
    simp only [readLoopF, if_pos hcap, h1, h2, h3, if_pos rfl,
      if_neg hv, if_pos hverb]
    simp [ByteSource.buffered, hacc]
  · intro ε fuel cap acc ws cs e hws hacc hcap
    have h1 : readByte
        (⟨IAC :: SB :: (ws ++ [IAC, SE]), cs, e⟩ : ByteSource ε) =
        .ok (IAC, ⟨SB :: (ws ++ [IAC, SE]), cs, e⟩) := rfl
    have h2 : readByte
        (⟨SB :: (ws ++ [IAC, SE]), cs, e⟩ : ByteSource ε) =
        .ok (SB, ⟨ws ++ [IAC, SE], cs, e⟩) := rfl
    have h4 := subneg_consumes ws cs e hws
    simp only [readLoopF, if_pos hcap, h1, h2, if_pos rfl,
      if_neg (by decide : ¬(SB = IAC)),
      if_neg (by decide : ¬(SB = DO ∨ SB = DONT ∨ SB = WILL ∨ SB = WONT)),
      h4]
    simp [ByteSource.buffered, hacc]

/-- Witness for the amended C3: a whole buffered subnegotiation block
(holding an inner `IAC IAC`) and a buffered plain byte each make the
call return at once, with a further chunk left pending unread. -/
theorem c3_loop_exit_amended_witness :
    readLoopF 5 4 [72] (⟨[255, 250, 24, 255, 255, 255, 240], [[33]], 0⟩ :
        ByteSource Nat) = ([72], ⟨[], [[33]], 0⟩, none) ∧
    readLoopF 3 2 [] (⟨[65], [[66]], 0⟩ : ByteSource Nat) =
      ([65], ⟨[], [[66]], 0⟩, none) :=
  ⟨c3_loop_exit_amended.2.2.2.2 Nat 4 4 [72] [24, 255, 255] [[33]] 0
      (by decide) (by decide) (by decide),
    c3_loop_exit_amended.2.1 Nat 2 2 [] 65 [[66]] 0 (by decide) (by decide)⟩

/-- C8 fails as stated: a call with a zero-length destination buffer
returns zero bytes and no error although the source is not at
end-of-stream. -/
theorem c8_counterexample :
    (TelnetRead 0 (⟨[65], [], 0⟩ : ByteSource Nat)).1 = [] ∧
      (TelnetRead 0 (⟨[65], [], 0⟩ : ByteSource Nat)).2.2 = none ∧
      (⟨[65], [], 0⟩ : ByteSource Nat).flat ≠ [] := by decide

/-- C8 amended: for every call with a nonempty destination buffer,
zero emitted bytes happen only together with an error (end-of-stream
or read failure); an error-free call emits at least one byte. -/
theorem c8_zero_output_amended {ε : Type} (cap : Nat) (src : ByteSource ε)
    (out : List Nat) (src' : ByteSource ε) (res : Option ε)
    (hcap : 0 < cap) (hrun : TelnetRead cap src = (out, src', res))
    (hout : out = []) : ∃ e, res = some e := by
  cases res with
  | some e => exact ⟨e, rfl⟩
  | none =>
    subst hout
    have h := readLoopF_exit (src.size + 1) cap [] src [] src'
      (Nat.lt_succ_self _) (Nat.zero_le _) hrun
    rcases h with h | ⟨_, h⟩
    · simp at h; omega
    · simp at h

/-- Witness for the amended C8: at end-of-stream the empty return
carries the error. -/
theorem c8_zero_output_amended_witness :
    ∃ e, (some 9 : Option Nat) = some e :=
  c8_zero_output_amended 1 (⟨[], [], 9⟩ : ByteSource Nat) [] ⟨[], [], 9⟩
    (some 9) (by decide) (by decide) rfl

/-- C9: every read failure of the underlying source, in plain data or
mid-command, is propagated verbatim together with the bytes emitted so
far in the call, the source then being exhausted; the partial command
contributes no output, as the emitted bytes are exactly the decode of
the whole stream, under which an incomplete trailing sequence yields
nothing. -/
theorem c9_error_propagation {ε : Type} (cap : Nat) (src : ByteSource ε)
    (out : List Nat) (src' : ByteSource ε) (e : ε)
    (hrun : TelnetRead cap src = (out, src', some e)) :
    e = src.endErr ∧ out = decode src.flat ∧ src'.flat = [] := by
  obtain ⟨⟨d, hd1, hd2⟩, hE, hS, hErr⟩ :=
    readLoopF_spec (src.size + 1) cap [] src out src' (some e)
      (Nat.lt_succ_self _) hrun
  obtain ⟨he, hf⟩ := hErr e rfl
  refine ⟨he, ?_, hf⟩
  rw [hd1]
  simp only [decode, List.nil_append]
  rw [hd2, hf]
  simp [runSt_nil]

/-- Witness for C9: failure right after an `IAC`, mid-command;  the
byte emitted before it is delivered along the propagated error. -/
theorem c9_error_propagation_witness :
    (7 : Nat) = (⟨[65, 255], [], 7⟩ : ByteSource Nat).endErr ∧
      [65] = decode (⟨[65, 255], [], 7⟩ : ByteSource Nat).flat ∧
      (⟨[], [], 7⟩ : ByteSource Nat).flat = [] :=
  c9_error_propagation 4 ⟨[65, 255], [], 7⟩ [65] ⟨[], [], 7⟩ 7 (by decide)

/-- C10: an error-free call leaves no control sequence in progress:
the remaining stream decodes from the plain-data state, so the decode
of the whole stream is the call's output followed by the decode of
what is left; the reader state carried across calls is the byte source
alone. -/
theorem c10_no_state_across_calls {ε : Type} (cap : Nat)
    (src : ByteSource ε) (out : List Nat) (src' : ByteSource ε)
    (hrun : TelnetRead cap src = (out, src', none)) :
    decode src.flat = out ++ decode src'.flat := by
  obtain ⟨⟨d, hd1, hd2⟩, _, _, _⟩ :=
    readLoopF_spec (src.size + 1) cap [] src out src' none
      (Nat.lt_succ_self _) hrun
  rw [hd1]
  simp only [decode, List.nil_append]
  exact hd2

/-- Witness for C10: an `IAC IAC` escape resolved across a chunk
boundary inside one call; the call ends with the decoder idle. -/
theorem c10_no_state_across_calls_witness :
    decode (⟨[255], [[255], [33]], 7⟩ : ByteSource Nat).flat =
      [255] ++ decode (⟨[], [[33]], 7⟩ : ByteSource Nat).flat :=
  c10_no_state_across_calls 5 ⟨[255], [[255], [33]], 7⟩ [255]
    ⟨[], [[33]], 7⟩ (by decide)
